import Mathlib

/-!
Verification of the CSV song-searching program (`CSV_Program.py`).

The program reads rows `(artist, song, lyrics)` from a CSV file, tokenizes
the lyrics into per-song word sets (dropping stopwords and non-alphabetic
tokens), builds a two-level dictionary `artist -> song -> word set`,
derives per-artist averages, and supports subset search over the index.

Python dictionaries are modelled as insertion-ordered association lists
(`dictGet` is lookup of the first matching key, `dictInsert` replaces the
value in place when the key is present and appends otherwise, exactly the
semantics of `d[k] = v` on a `dict` whose keys are unique).  Strings are
Lean strings; the ASCII fragment of Python's `str.lower`, `str.isalpha`,
`str.split`, `str.strip` and `string.punctuation` is modelled on character
codes.  Floating point averages are modelled as rationals.
-/

/-- ASCII whitespace characters recognised by Python's `str.split()` /
`str.strip()`: space, tab, LF, VT, FF, CR. -/
def isSpaceCh (c : Char) : Bool :=
  decide (c.toNat = 32) || decide (c.toNat = 9) || decide (c.toNat = 10) ||
  decide (c.toNat = 11) || decide (c.toNat = 12) || decide (c.toNat = 13)

/-- ASCII alphabetic test, the fragment of Python's `str.isalpha` exercised
by this program: `A`-`Z` or `a`-`z`. -/
def isAlphaCh (c : Char) : Bool :=
  (decide (65 ≤ c.toNat) && decide (c.toNat ≤ 90)) ||
  (decide (97 ≤ c.toNat) && decide (c.toNat ≤ 122))

/-- The character codes of Python's `string.punctuation`. -/
def pyPunctCodes : List Nat :=
  [33, 34, 35, 36, 37, 38, 39, 40, 41, 42, 43, 44, 45, 46, 47,
   58, 59, 60, 61, 62, 63, 64, 91, 92, 93, 94, 95, 96, 123, 124, 125, 126]

/-- Membership in Python's `string.punctuation`. -/
def isPunctCh (c : Char) : Bool :=
  decide (c.toNat ∈ pyPunctCodes)

/-- Python's `str.lower` on one ASCII character: map `A`-`Z` to `a`-`z`,
leave everything else unchanged. -/
def lowerCh (c : Char) : Char :=
  if 65 ≤ c.toNat ∧ c.toNat ≤ 90 then Char.ofNat (c.toNat + 32) else c

/-- Python's `str.lower` over a whole string. -/
def strLower (s : String) : String :=
  (s.data.map lowerCh).asString

/-- Strip characters satisfying `p` from both ends of a character list,
modelling Python's `str.strip(chars)`. -/
def pyStrip (p : Char → Bool) (cs : List Char) : List Char :=
  ((cs.dropWhile p).reverse.dropWhile p).reverse

/-- Worker for `splitWS`: `tok` holds the characters of the token being
read, most recent first. -/
def splitWSAux : List Char → List Char → List (List Char)
  | [], tok => if tok.isEmpty then [] else [tok.reverse]
  | c :: cs, tok =>
    if isSpaceCh c then
      if tok.isEmpty then splitWSAux cs [] else tok.reverse :: splitWSAux cs []
    else splitWSAux cs (c :: tok)

/-- Python's `str.split()` (no separator argument): split on runs of
whitespace, never producing empty tokens. -/
def splitWS (cs : List Char) : List (List Char) :=
  splitWSAux cs []

/-- The per-token normalization performed inside `process_lyrics`:
`word.lower().strip().strip(string.punctuation)`. -/
def cleanToken (cs : List Char) : List Char :=
  pyStrip isPunctCh (pyStrip isSpaceCh (cs.map lowerCh))

/-- A song's validated vocabulary. -/
abbrev WordSet := Finset String

/-- Python's `word.isalpha()`: non-empty and all characters alphabetic. -/
def pyIsAlpha (s : String) : Bool :=
  !s.data.isEmpty && s.data.all isAlphaCh

/-- `validate_word(word, stopwords)` from the source: true iff the word is
not a stopword and `word.isalpha()` holds. -/
def validate_word (word : String) (stopwords : Finset String) : Bool :=
  decide (word ∉ stopwords) && pyIsAlpha word

/-- `process_lyrics(lyrics, stopwords)` from the source: split on
whitespace, normalize each token with lower/strip/strip-punctuation, and
collect the tokens passing `validate_word` into a set. -/
def process_lyrics (lyrics : String) (stopwords : Finset String) : WordSet :=
  let word_list := (splitWS lyrics.data).map (fun w => (cleanToken w).asString)
  word_list.foldl
    (fun acc word => if validate_word word stopwords then insert word acc else acc) ∅

/-- One song dictionary of an artist: insertion-ordered `song -> WordSet`. -/
abbrev SongMap := List (String × WordSet)

/-- The two-level index `artist -> song -> WordSet` built by the program. -/
abbrev DataDict := List (String × SongMap)

/-- Lookup of a key in a Python dictionary modelled as an association
list: the first binding wins. -/
def dictGet {β : Type} (m : List (String × β)) (k : String) : Option β :=
  match m with
  | [] => none
  | p :: rest => if p.1 = k then some p.2 else dictGet rest k

/-- Assignment `m[k] = v` on a Python dictionary modelled as an
association list: replace the binding in place if present, else append. -/
def dictInsert {β : Type} (m : List (String × β)) (k : String) (v : β) :
    List (String × β) :=
  match m with
  | [] => [(k, v)]
  | p :: rest => if p.1 = k then (k, v) :: rest else p :: dictInsert rest k v

/-- `update_dictionary(data_dict, singer, song, words)` from the source:
create the artist with a singleton song map when absent, otherwise
`data_dict[singer].update({song: words})`. -/
def update_dictionary (d : DataDict) (singer song : String) (words : WordSet) :
    DataDict :=
  match dictGet d singer with
  | none => d ++ [(singer, [(song, words)])]
  | some inner => dictInsert d singer (dictInsert inner song words)

/-- Combined lookup `data_dict[singer][song]`. -/
def getWords (d : DataDict) (singer song : String) : Option WordSet :=
  match dictGet d singer with
  | none => none
  | some inner => dictGet inner song

/-- Processing of one CSV data row inside `read_data`'s loop: Python
evaluates `line[2]` first (raising `IndexError` when the row is too
short), then `line[0]` and `line[1]`. -/
def readLine (stopwords : Finset String) (d : DataDict) (line : List String) :
    Except String DataDict :=
  match line.get? 2 with
  | none => Except.error "IndexError"
  | some lyr =>
    match line.get? 0, line.get? 1 with
    | some singer, some song =>
        Except.ok (update_dictionary d singer song
          (process_lyrics (strLower lyr) stopwords))
    | _, _ => Except.error "IndexError"

/-- The row loop of `read_data`: an uncaught exception aborts the pass,
so no partial index is ever returned. -/
def readRows (stopwords : Finset String) (d : DataDict) :
    List (List String) → Except String DataDict
  | [] => Except.ok d
  | line :: rest =>
    match readLine stopwords d line with
    | Except.error e => Except.error e
    | Except.ok d2 => readRows stopwords d2 rest

/-- `read_data(fp, stopwords)` from the source, over the parsed CSV rows:
`next(reader)` discards the header (raising `StopIteration` on an empty
file), then every remaining row is tokenized and inserted. -/
def read_data (rows : List (List String)) (stopwords : Finset String) :
    Except String DataDict :=
  match rows with
  | [] => Except.error "StopIteration"
  | _ :: body => readRows stopwords [] body

/-- `calculate_average_word_count(data_dict)` from the source: for each
singer, accumulate `word_total` over the song word sets and divide by the
number of songs (float division, modelled in `ℚ`). -/
def calculate_average_word_count (d : DataDict) : List (String × ℚ) :=
  d.foldl
    (fun acc p =>
      let song_total : ℕ := p.2.length
      let word_total : ℕ := p.2.foldl (fun n q => n + q.2.card) 0
      acc ++ [(p.1, (word_total : ℚ) / (song_total : ℚ))]) []

/-- Lexicographic order on pairs, as Python compares tuples. -/
def lexLe {α β : Type} [LinearOrder α] [LinearOrder β] (x y : α × β) : Prop :=
  x.1 < y.1 ∨ (x.1 = y.1 ∧ x.2 ≤ y.2)

instance {α β : Type} [LinearOrder α] [LinearOrder β] :
    DecidableRel (lexLe (α := α) (β := β)) := by
  intro a b
  unfold lexLe
  infer_instance

/-- The comparison performed by `sorted(match_list, key=itemgetter(0, 1))`:
ascending lexicographic order on `(singer, song)` pairs. -/
def pairLeB (a b : String × String) : Bool :=
  decide (lexLe a b)

/-- `search_songs(data_dict, words)` from the source: collect every
`(singer, song_name)` whose word set contains `words` as a subset, in
iteration order, then sort ascending by `(singer, song)`. -/
def search_songs (d : DataDict) (words : WordSet) : List (String × String) :=
  let match_list := d.foldl
    (fun acc p =>
      p.2.foldl
        (fun acc2 q => if words ⊆ q.2 then acc2 ++ [(p.1, q.1)] else acc2) acc) []
  match_list.mergeSort pairLeB

/-- The unsorted match list accumulated by `search_songs`'s two nested
loops, in `flatMap` form (used to reason about the loop). -/
def matchList (d : DataDict) (Q : WordSet) : List (String × String) :=
  d.flatMap (fun p =>
    (p.2.filter (fun q => decide (Q ⊆ q.2))).map (fun q => (p.1, q.1)))

/-- A row of the ranking table built in `main`:
`(singer, average word count, vocabulary size, number of songs)`. -/
abbrev RankRow := String × ℚ × ℕ × ℕ

/-- `itemgetter(1, 3)` on a `RankRow`: the pair
(average word count, number of songs). -/
def rankKey (t : RankRow) : ℚ × ℕ :=
  (t.2.1, t.2.2.2)

/-- The comparator realised by
`sorted(combined_list, key=itemgetter(1, 3), reverse=True)`: `a` may come
before `b` iff the key of `b` is lexicographically at most the key of
`a`. -/
def rankDescLe (a b : RankRow) : Bool :=
  decide (lexLe (rankKey b) (rankKey a))

/-- `display_singers(combined_list)` from the source, modelled as the rows
actually printed: sort descending by (average, song count) — a stable
reverse sort — and keep the first 10 rows. -/
def display_singers (combined_list : List RankRow) : List RankRow :=
  (combined_list.mergeSort rankDescLe).take 10

/-- The keys of an association list are pairwise distinct: the invariant
every genuine Python dictionary satisfies. -/
def nodupKeys {β : Type} (m : List (String × β)) : Prop :=
  (m.map Prod.fst).Nodup

instance {β : Type} : DecidablePred (nodupKeys (β := β)) := by
  intro m
  unfold nodupKeys
  infer_instance

/-- An arbitrary sequence of index insertions starting from the empty
dictionary: every index reachable by the build pass or by later
`update_dictionary` calls has this shape. -/
def buildFromOps (ops : List (String × String × WordSet)) : DataDict :=
  ops.foldl (fun d op => update_dictionary d op.1 op.2.1 op.2.2) []

/-- Join a list of character lists with single spaces, the inverse
direction used to state idempotence of tokenization. -/
def joinChars : List (List Char) → List Char
  | [] => []
  | [w] => w
  | w :: ws => w ++ ' ' :: joinChars ws

/-- Join a list of words into one whitespace-separated string. -/
def joinWords (l : List String) : String :=
  (joinChars (l.map String.data)).asString

/-- A tiny concrete index used to witness the theorems below. -/
def dEx : DataDict :=
  [("Art1", [("S1", {"cat", "sat"}), ("S2", {"dog", "cat"})]),
   ("A0", [("Z", {"sun"})])]

/-! ### Association-list dictionary lemmas -/

theorem dictGet_dictInsert_self {β : Type} (m : List (String × β)) (k : String) (v : β) :
    dictGet (dictInsert m k v) k = some v := by
  induction m with
  | nil => simp [dictGet, dictInsert]
  | cons p rest ih =>
    by_cases h : p.1 = k
    · simp [dictInsert, h, dictGet]
    · simp [dictInsert, h, dictGet, ih]

theorem dictGet_dictInsert_ne {β : Type} (m : List (String × β)) (k a : String) (v : β)
    (h : a ≠ k) : dictGet (dictInsert m k v) a = dictGet m a := by
  have hka : ¬ k = a := fun e => h e.symm
  induction m with
  | nil => simp [dictGet, dictInsert, hka]
  | cons p rest ih =>
    by_cases hp : p.1 = k
    · simp [dictInsert, hp, dictGet, hka]
    · simp only [dictInsert, hp, if_false]
      by_cases hpa : p.1 = a
      · simp [dictGet, hpa]
      · simp [dictGet, hpa, ih]

theorem dictGet_append_left {β : Type} (m1 m2 : List (String × β)) (k : String) (v : β)
    (h : dictGet m1 k = some v) : dictGet (m1 ++ m2) k = some v := by
  induction m1 with
  | nil => simp [dictGet] at h
  | cons p rest ih =>
    by_cases hp : p.1 = k
    · simp [dictGet, hp] at h ⊢; exact h
    · simp [dictGet, hp] at h ⊢; exact ih h

theorem dictGet_append_right {β : Type} (m1 m2 : List (String × β)) (k : String)
    (h : dictGet m1 k = none) : dictGet (m1 ++ m2) k = dictGet m2 k := by
  induction m1 with
  | nil => simp [dictGet]
  | cons p rest ih =>
    by_cases hp : p.1 = k
    · simp [dictGet, hp] at h
    · simp [dictGet, hp] at h ⊢; exact ih h

theorem mem_of_dictGet_eq_some {β : Type} (m : List (String × β)) (k : String) (v : β)
    (h : dictGet m k = some v) : (k, v) ∈ m := by
  induction m with
  | nil => simp [dictGet] at h
  | cons p rest ih =>
    by_cases hp : p.1 = k
    · simp only [dictGet, hp, if_true, Option.some.injEq] at h
      subst hp; subst h
      exact List.mem_cons_self p rest
    · simp only [dictGet, hp, if_false] at h
      exact List.mem_cons_of_mem p (ih h)

theorem dictGet_eq_some_of_mem {β : Type} (m : List (String × β)) (k : String) (v : β)
    (hm : nodupKeys m) (h : (k, v) ∈ m) : dictGet m k = some v := by
  induction m with
  | nil => simp at h
  | cons p rest ih =>
    unfold nodupKeys at hm
    simp only [List.map_cons, List.nodup_cons] at hm
    rcases List.mem_cons.mp h with h1 | h1
    · subst h1; simp [dictGet]
    · have hk : p.1 ≠ k := by
        intro e
        have hmem : k ∈ rest.map Prod.fst := by
          have : (k, v).1 ∈ rest.map Prod.fst := List.mem_map_of_mem Prod.fst h1
          exact this
        exact hm.1 (e ▸ hmem)
      simp [dictGet, hk, ih hm.2 h1]

/-! ### `update_dictionary`: insertion and frame lemmas -/

theorem getWords_update_self (d : DataDict) (singer song : String) (words : WordSet) :
    getWords (update_dictionary d singer song words) singer song = some words := by
  unfold update_dictionary
  cases hd : dictGet d singer with
  | none =>
    unfold getWords
    rw [dictGet_append_right d _ singer hd]
    simp [dictGet]
  | some inner =>
    unfold getWords
    rw [dictGet_dictInsert_self]
    exact dictGet_dictInsert_self inner song words

theorem dictGet_update_other (d : DataDict) (singer song a : String) (words : WordSet)
    (h : a ≠ singer) :
    dictGet (update_dictionary d singer song words) a = dictGet d a := by
  unfold update_dictionary
  cases hd : dictGet d singer with
  | none =>
    cases ha : dictGet d a with
    | none =>
      have hsa : ¬ singer = a := fun e => h e.symm
      rw [dictGet_append_right d _ a ha]
      simp [dictGet, hsa]
    | some v =>
      exact dictGet_append_left d _ a v ha
  | some inner =>
    exact dictGet_dictInsert_ne d singer a _ h

theorem getWords_update_other_song (d : DataDict) (singer song s : String) (words : WordSet)
    (h : s ≠ song) :
    getWords (update_dictionary d singer song words) singer s = getWords d singer s := by
  unfold update_dictionary
  cases hd : dictGet d singer with
  | none =>
    have hgs : ¬ song = s := fun e => h e.symm
    unfold getWords
    rw [dictGet_append_right d _ singer hd, hd]
    simp [dictGet, hgs]
  | some inner =>
    unfold getWords
    rw [dictGet_dictInsert_self, hd]
    exact dictGet_dictInsert_ne inner song s words h

theorem mem_dictInsert_cases {β : Type} (m : List (String × β)) (k : String) (v : β) :
    ∀ p ∈ dictInsert m k v, p ∈ m ∨ p = (k, v) := by
  induction m with
  | nil => intro p hp; simp [dictInsert] at hp; right; exact hp
  | cons q rest ih =>
    intro p hp
    by_cases hq : q.1 = k
    · simp only [dictInsert, hq, if_true] at hp
      rcases List.mem_cons.mp hp with h1 | h1
      · right; exact h1
      · left; exact List.mem_cons_of_mem q h1
    · simp only [dictInsert, hq, if_false] at hp
      rcases List.mem_cons.mp hp with h1 | h1
      · left; exact h1 ▸ List.mem_cons_self q rest
      · rcases ih p h1 with h2 | h2
        · left; exact List.mem_cons_of_mem q h2
        · right; exact h2

theorem dictInsert_ne_nil {β : Type} (m : List (String × β)) (k : String) (v : β) :
    dictInsert m k v ≠ [] := by
  cases m with
  | nil => simp [dictInsert]
  | cons q rest =>
    by_cases hq : q.1 = k
    · simp [dictInsert, hq]
    · simp [dictInsert, hq]

theorem update_dictionary_preserves_nonempty (d : DataDict) (s g : String) (w : WordSet)
    (h : ∀ p ∈ d, p.2 ≠ []) : ∀ p ∈ update_dictionary d s g w, p.2 ≠ [] := by
  intro p hp
  unfold update_dictionary at hp
  cases hd : dictGet d s with
  | none =>
    rw [hd] at hp
    rcases List.mem_append.mp hp with h1 | h1
    · exact h p h1
    · simp at h1
      rw [h1]
      simp
  | some inner =>
    rw [hd] at hp
    rcases mem_dictInsert_cases d s _ p hp with h1 | h1
    · exact h p h1
    · rw [h1]
      exact dictInsert_ne_nil inner g w

theorem readRows_preserves_nonempty (S : Finset String) :
    ∀ (body : List (List String)) (d d2 : DataDict),
      (∀ p ∈ d, p.2 ≠ []) → readRows S d body = Except.ok d2 → ∀ p ∈ d2, p.2 ≠ [] := by
  intro body
  induction body with
  | nil =>
    intro d d2 h he
    simp only [readRows] at he
    cases he
    exact h
  | cons line rest ih =>
    intro d d2 h he
    simp only [readRows] at he
    cases hr : readLine S d line with
    | error e => rw [hr] at he; cases he
    | ok d1 =>
      rw [hr] at he
      have h1 : ∀ p ∈ d1, p.2 ≠ [] := by
        unfold readLine at hr
        cases h2 : line.get? 2 with
        | none => rw [h2] at hr; cases hr
        | some lyr =>
          rw [h2] at hr
          cases h0 : line.get? 0 with
          | none => rw [h0] at hr; cases hr
          | some singer =>
            cases hone : line.get? 1 with
            | none => rw [h0, hone] at hr; cases hr
            | some song =>
              rw [h0, hone] at hr
              cases hr
              exact update_dictionary_preserves_nonempty d singer song _ h
      exact ih d1 d2 h1 he

theorem buildFromOps_preserves_nonempty :
    ∀ (ops : List (String × String × WordSet)) (d : DataDict),
      (∀ p ∈ d, p.2 ≠ []) →
      ∀ p ∈ ops.foldl (fun d op => update_dictionary d op.1 op.2.1 op.2.2) d, p.2 ≠ [] := by
  intro ops
  induction ops with
  | nil => intro d h; simpa using h
  | cons op rest ih =>
    intro d h
    simp only [List.foldl_cons]
    exact ih _ (update_dictionary_preserves_nonempty d op.1 op.2.1 op.2.2 h)

/-- C5: every artist entry of an index reachable by insertions from the
empty dictionary — in particular every index returned by the build pass
`read_data` — has a non-empty song map, so the `song_total` divisor used
by `calculate_average_word_count` is never zero. -/
theorem index_song_maps_nonempty :
    (∀ ops : List (String × String × WordSet), ∀ p ∈ buildFromOps ops, p.2.length ≠ 0)
    ∧ (∀ (rows : List (List String)) (S : Finset String) (d : DataDict),
        read_data rows S = Except.ok d → ∀ p ∈ d, p.2.length ≠ 0) := by
  constructor
  · intro ops p hp
    have := buildFromOps_preserves_nonempty ops [] (by simp) p hp
    simpa [List.length_eq_zero] using this
  · intro rows S d hrd p hp
    cases rows with
    | nil => simp [read_data] at hrd
    | cons header body =>
      simp only [read_data] at hrd
      have := readRows_preserves_nonempty S body [] d (by simp) hrd p hp
      simpa [List.length_eq_zero] using this

/-- Witness for C5 at a concrete build. -/
theorem index_song_maps_nonempty_witness :
    (("Art1", ([("S1", ({"cat"} : WordSet))] : SongMap)) : String × SongMap).2.length ≠ 0 :=
  index_song_maps_nonempty.1 [("Art1", "S1", {"cat"})] ("Art1", [("S1", {"cat"})])
    (List.mem_cons_self _ _)

/-- C10: inserting `(singer, song, words)` sets exactly that song's word
set and changes nothing else: other artists keep their whole song map and
the artist's other songs keep their word sets. -/
theorem update_dictionary_frame (d : DataDict) (singer song : String) (words : WordSet) :
    getWords (update_dictionary d singer song words) singer song = some words
    ∧ (∀ a, a ≠ singer →
        dictGet (update_dictionary d singer song words) a = dictGet d a)
    ∧ (∀ s, s ≠ song →
        getWords (update_dictionary d singer song words) singer s = getWords d singer s) :=
  ⟨getWords_update_self d singer song words,
   fun a ha => dictGet_update_other d singer song a words ha,
   fun s hs => getWords_update_other_song d singer song s words hs⟩

/-- Witness for C10 at a concrete index. -/
theorem update_dictionary_frame_witness :
    getWords (update_dictionary dEx "Art1" "S1" {"new"}) "Art1" "S1" = some {"new"}
    ∧ dictGet (update_dictionary dEx "Art1" "S1" {"new"}) "A0" = dictGet dEx "A0"
    ∧ getWords (update_dictionary dEx "Art1" "S1" {"new"}) "Art1" "S2" =
        getWords dEx "Art1" "S2" :=
  ⟨(update_dictionary_frame dEx "Art1" "S1" {"new"}).1,
   (update_dictionary_frame dEx "Art1" "S1" {"new"}).2.1 "A0" (by decide),
   (update_dictionary_frame dEx "Art1" "S1" {"new"}).2.2 "S2" (by decide)⟩

/-- C7: when `(singer, song)` already has an entry, `update_dictionary`
replaces the stored word set entirely with the new one — the result is the
new set itself, whatever the old set was, not a union or merge. -/
theorem update_dictionary_last_write_wins (d : DataDict) (singer song : String)
    (words old : WordSet) (h : getWords d singer song = some old) :
    getWords (update_dictionary d singer song words) singer song = some words :=
  getWords_update_self d singer song words

/-- Witness for C7: overwriting an existing entry. -/
theorem update_dictionary_last_write_wins_witness :
    getWords (update_dictionary dEx "Art1" "S2" {"bee"}) "Art1" "S2" = some {"bee"} :=
  update_dictionary_last_write_wins dEx "Art1" "S2" {"bee"} {"dog", "cat"} rfl

/-! ### The word validator (C3) -/

theorem validate_word_iff_aux (w : String) (S : Finset String) :
    validate_word w S = true ↔
      (w.data ≠ [] ∧ (∀ c ∈ w.data, isAlphaCh c = true) ∧ w ∉ S) := by
  unfold validate_word pyIsAlpha
  simp only [Bool.and_eq_true, decide_eq_true_eq, Bool.not_eq_true',
    List.isEmpty_eq_false, List.all_eq_true]
  tauto

/-- C3: `validate_word` accepts exactly the non-empty all-alphabetic words
that are not stopwords. -/
theorem validate_word_iff (w : String) (S : Finset String) :
    validate_word w S = true ↔
      (w.data ≠ [] ∧ (∀ c ∈ w.data, isAlphaCh c = true) ∧ w ∉ S) :=
  validate_word_iff_aux w S

/-- Witness for C3. -/
theorem validate_word_iff_witness : validate_word "cat" ({"the"} : Finset String) = true :=
  (validate_word_iff "cat" {"the"}).mpr ⟨by decide, by decide, by decide⟩

/-! ### Per-artist averages (C4) -/

theorem calc_avg_foldl_aux : ∀ (d : DataDict) (acc : List (String × ℚ)),
    d.foldl
      (fun acc p =>
        let song_total : ℕ := p.2.length
        let word_total : ℕ := p.2.foldl (fun n q => n + q.2.card) 0
        acc ++ [(p.1, (word_total : ℚ) / (song_total : ℚ))]) acc
    = acc ++ d.map (fun p =>
        (p.1, ((p.2.foldl (fun n q => n + q.2.card) 0 : ℕ) : ℚ) / (p.2.length : ℚ))) := by
  intro d
  induction d with
  | nil => intro acc; simp
  | cons p rest ih => intro acc; simp [ih]

theorem foldl_add_card : ∀ (m : SongMap) (n : ℕ),
    m.foldl (fun n q => n + q.2.card) n = n + (m.map (fun q => q.2.card)).sum := by
  intro m
  induction m with
  | nil => intro n; simp
  | cons q rest ih =>
    intro n
    simp only [List.foldl_cons, List.map_cons, List.sum_cons, ih]
    omega

theorem dictGet_map_values {β γ : Type} (g : β → γ) (d : List (String × β)) (k : String) :
    dictGet (d.map (fun p => (p.1, g p.2))) k = (dictGet d k).map g := by
  induction d with
  | nil => simp [dictGet]
  | cons p rest ih =>
    by_cases hp : p.1 = k
    · simp [dictGet, hp]
    · simp [dictGet, hp, ih]

/-- C4: for every artist entry `(a, m)` of the index, the computed average
is exactly the sum of the word-set sizes of `a`'s songs divided by the
number of `a`'s songs. -/
theorem calculate_average_word_count_correct (d : DataDict) (hd : nodupKeys d)
    (a : String) (m : SongMap) (ham : (a, m) ∈ d) :
    dictGet (calculate_average_word_count d) a =
      some ((m.map (fun q => (q.2.card : ℚ))).sum / (m.length : ℚ)) := by
  have h1 : calculate_average_word_count d =
      d.map (fun p =>
        (p.1, (((p.2.map (fun q => q.2.card)).sum : ℕ) : ℚ) / (p.2.length : ℚ))) := by
    unfold calculate_average_word_count
    rw [calc_avg_foldl_aux d []]
    simp only [List.nil_append]
    apply List.map_congr_left
    intro p _
    rw [foldl_add_card p.2 0, Nat.zero_add]
  rw [h1]
  rw [dictGet_map_values
    (fun v : SongMap => (((v.map (fun q => q.2.card)).sum : ℕ) : ℚ) / (v.length : ℚ)) d a]
  rw [dictGet_eq_some_of_mem d a m hd ham]
  simp only [Option.map_some']
  congr 1
  rw [Nat.cast_list_sum, List.map_map]
  rfl

/-- Witness for C4 on the concrete index `dEx`. -/
theorem calculate_average_word_count_correct_witness :
    dictGet (calculate_average_word_count dEx) "Art1" =
      some (((([("S1", ({"cat", "sat"} : WordSet)), ("S2", {"dog", "cat"})] : SongMap).map
        (fun q => (q.2.card : ℚ))).sum) /
        (([("S1", ({"cat", "sat"} : WordSet)), ("S2", {"dog", "cat"})] : SongMap).length : ℚ)) :=
  calculate_average_word_count_correct dEx (by decide) "Art1"
    [("S1", {"cat", "sat"}), ("S2", {"dog", "cat"})] (List.mem_cons_self _ _)

/-! ### Malformed rows in the build pass (C2) -/

theorem readLine_error_of_short (S : Finset String) (d : DataDict) :
    ∀ (line : List String), line.length < 3 →
      readLine S d line = Except.error "IndexError" := by
  intro line h
  cases line with
  | nil => rfl
  | cons a l1 =>
    cases l1 with
    | nil => rfl
    | cons b l2 =>
      cases l2 with
      | nil => rfl
      | cons c l3 => simp at h; omega

theorem readLine_ok_of_long (S : Finset String) (d : DataDict) :
    ∀ (line : List String), 3 ≤ line.length →
      ∃ d2, readLine S d line = Except.ok d2 := by
  intro line h
  cases line with
  | nil => simp at h
  | cons a l1 =>
    cases l1 with
    | nil => simp at h
    | cons b l2 =>
      cases l2 with
      | nil => simp at h
      | cons c l3 => exact ⟨_, rfl⟩

theorem readRows_error_of_short (S : Finset String) :
    ∀ (body : List (List String)) (d : DataDict),
      (∃ line ∈ body, line.length < 3) →
      readRows S d body = Except.error "IndexError" := by
  intro body
  induction body with
  | nil => intro d h; simp at h
  | cons line rest ih =>
    intro d h
    by_cases hl : line.length < 3
    · simp only [readRows]
      rw [readLine_error_of_short S d line hl]
    · have h3 : 3 ≤ line.length := by omega
      obtain ⟨d2, hd2⟩ := readLine_ok_of_long S d line h3
      simp only [readRows]
      rw [hd2]
      apply ih
      rcases h with ⟨l, hm, hlen⟩
      rcases List.mem_cons.mp hm with he | he
      · exact absurd (he ▸ hlen) hl
      · exact ⟨l, he, hlen⟩

theorem readRows_ok_of_wellformed (S : Finset String) :
    ∀ (body : List (List String)) (d : DataDict),
      (∀ line ∈ body, 3 ≤ line.length) →
      ∃ d2, readRows S d body = Except.ok d2 := by
  intro body
  induction body with
  | nil => intro d _; exact ⟨d, rfl⟩
  | cons line rest ih =>
    intro d h
    obtain ⟨d1, hd1⟩ := readLine_ok_of_long S d line (h line (List.mem_cons_self _ _))
    simp only [readRows]
    rw [hd1]
    exact ih d1 (fun l hl => h l (List.mem_cons_of_mem _ hl))

/-- C2 counterexample: a data row with four fields — not exactly three —
is processed without any error, using its first three fields; the build
pass succeeds on this input, contradicting the claim that any row without
exactly three fields aborts the pass. -/
theorem read_data_four_field_row_ok :
    (∃ line ∈ [["h1", "h2", "h3"], ["a", "b", "c", "d"]], line.length ≠ 3)
    ∧ (read_data [["h1", "h2", "h3"], ["a", "b", "c", "d"]] ∅).isOk = true :=
  ⟨⟨["a", "b", "c", "d"], by decide, by decide⟩, rfl⟩

/-- C2 (amended): a data row with fewer than three fields makes the whole
build pass fail with an error and no index is returned (no partial index,
no silent skipping); rows with three or more fields never cause a
failure — extra fields beyond the third are ignored. -/
theorem read_data_malformed_rows (header : List String) (body : List (List String))
    (S : Finset String) :
    ((∃ line ∈ body, line.length < 3) →
      read_data (header :: body) S = Except.error "IndexError")
    ∧ ((∀ line ∈ body, 3 ≤ line.length) →
      ∃ d, read_data (header :: body) S = Except.ok d) := by
  constructor
  · intro h
    exact readRows_error_of_short S body [] h
  · intro h
    exact readRows_ok_of_wellformed S body [] h

/-- Witness for the amended C2: a two-field row aborts the pass. -/
theorem read_data_malformed_rows_witness :
    read_data [["h1", "h2", "h3"], ["a", "b"]] ∅ = Except.error "IndexError" :=
  (read_data_malformed_rows ["h1", "h2", "h3"] [["a", "b"]] ∅).1
    ⟨["a", "b"], by decide, by decide⟩

/-! ### The search engine (C1, C9) -/

theorem lexLe_trans {α β : Type} [LinearOrder α] [LinearOrder β] :
    ∀ (a b c : α × β), lexLe a b → lexLe b c → lexLe a c := by
  intro a b c hab hbc
  rcases hab with h1 | ⟨h1, h2⟩
  · rcases hbc with h3 | ⟨h3, h4⟩
    · exact Or.inl (lt_trans h1 h3)
    · exact Or.inl (h3 ▸ h1)
  · rcases hbc with h3 | ⟨h3, h4⟩
    · exact Or.inl (h1 ▸ h3)
    · exact Or.inr ⟨h1.trans h3, le_trans h2 h4⟩

theorem lexLe_total {α β : Type} [LinearOrder α] [LinearOrder β] :
    ∀ (a b : α × β), lexLe a b ∨ lexLe b a := by
  intro a b
  rcases lt_trichotomy a.1 b.1 with h | h | h
  · exact Or.inl (Or.inl h)
  · rcases le_total a.2 b.2 with h2 | h2
    · exact Or.inl (Or.inr ⟨h, h2⟩)
    · exact Or.inr (Or.inr ⟨h.symm, h2⟩)
  · exact Or.inr (Or.inl h)

theorem lexLe_antisymm {α β : Type} [LinearOrder α] [LinearOrder β] :
    ∀ (a b : α × β), lexLe a b → lexLe b a → a = b := by
  intro a b hab hba
  rcases hab with h1 | ⟨h1, h2⟩ <;> rcases hba with h3 | ⟨h3, h4⟩
  · exact absurd h3 (lt_asymm h1)
  · rw [h3] at h1; exact absurd h1 (lt_irrefl _)
  · rw [h1] at h3; exact absurd h3 (lt_irrefl _)
  · exact Prod.ext h1 (le_antisymm h2 h4)

theorem pairLeB_trans :
    ∀ (a b c : String × String), pairLeB a b → pairLeB b c → pairLeB a c := by
  intro a b c hab hbc
  unfold pairLeB at hab hbc ⊢
  exact decide_eq_true (lexLe_trans a b c (of_decide_eq_true hab) (of_decide_eq_true hbc))

theorem pairLeB_total : ∀ (a b : String × String), pairLeB a b || pairLeB b a := by
  intro a b
  unfold pairLeB
  rcases lexLe_total a b with h | h
  · simp [h]
  · simp [h]

theorem search_foldl_inner (Q : WordSet) (s : String) :
    ∀ (m : SongMap) (acc : List (String × String)),
      m.foldl (fun acc2 q => if Q ⊆ q.2 then acc2 ++ [(s, q.1)] else acc2) acc
        = acc ++ (m.filter (fun q => decide (Q ⊆ q.2))).map (fun q => (s, q.1)) := by
  intro m
  induction m with
  | nil => intro acc; simp
  | cons q rest ih =>
    intro acc
    by_cases hq : Q ⊆ q.2
    · simp [List.foldl_cons, hq, ih, List.filter_cons, List.append_assoc]
    · simp [List.foldl_cons, hq, ih, List.filter_cons]

theorem search_foldl_outer (Q : WordSet) :
    ∀ (d : DataDict) (acc : List (String × String)),
      d.foldl (fun acc p =>
        p.2.foldl
          (fun acc2 q => if Q ⊆ q.2 then acc2 ++ [(p.1, q.1)] else acc2) acc) acc
      = acc ++ matchList d Q := by
  intro d
  induction d with
  | nil => intro acc; simp [matchList]
  | cons p rest ih =>
    intro acc
    simp only [List.foldl_cons]
    rw [search_foldl_inner Q p.1 p.2 acc, ih]
    simp [matchList, List.append_assoc]

theorem search_songs_eq_sort_matchList (d : DataDict) (Q : WordSet) :
    search_songs d Q = (matchList d Q).mergeSort pairLeB := by
  unfold search_songs
  rw [search_foldl_outer Q d []]
  simp

theorem mem_matchList (d : DataDict) (Q : WordSet) (a s : String) :
    (a, s) ∈ matchList d Q ↔
      ∃ p ∈ d, p.1 = a ∧ ∃ q ∈ p.2, q.1 = s ∧ Q ⊆ q.2 := by
  unfold matchList
  simp only [List.mem_flatMap, List.mem_map, List.mem_filter, Prod.mk.injEq,
    decide_eq_true_eq]
  constructor
  · rintro ⟨p, hp, q, ⟨hq, hsub⟩, ha, hs⟩
    exact ⟨p, hp, ha, q, hq, hs, hsub⟩
  · rintro ⟨p, hp, ha, q, hq, hs, hsub⟩
    exact ⟨p, hp, q, ⟨hq, hsub⟩, ha, hs⟩

theorem getWords_iff_mem (d : DataDict) (hd : nodupKeys d)
    (hin : ∀ p ∈ d, nodupKeys p.2) (a s : String) (ws : WordSet) :
    getWords d a s = some ws ↔ ∃ m, (a, m) ∈ d ∧ (s, ws) ∈ m := by
  constructor
  · intro h
    unfold getWords at h
    cases hg : dictGet d a with
    | none => rw [hg] at h; cases h
    | some m =>
      rw [hg] at h
      exact ⟨m, mem_of_dictGet_eq_some d a m hg, mem_of_dictGet_eq_some m s ws h⟩
  · rintro ⟨m, hm, hsm⟩
    unfold getWords
    rw [dictGet_eq_some_of_mem d a m hd hm]
    exact dictGet_eq_some_of_mem m s ws (hin (a, m) hm) hsm

theorem mem_search_songs (d : DataDict) (Q : WordSet) (hd : nodupKeys d)
    (hin : ∀ p ∈ d, nodupKeys p.2) (a s : String) :
    (a, s) ∈ search_songs d Q ↔ ∃ ws, getWords d a s = some ws ∧ Q ⊆ ws := by
  rw [search_songs_eq_sort_matchList, List.mem_mergeSort, mem_matchList]
  constructor
  · rintro ⟨p, hp, ha, q, hq, hs, hsub⟩
    refine ⟨q.2, ?_, hsub⟩
    rw [getWords_iff_mem d hd hin a s q.2]
    refine ⟨p.2, ?_, ?_⟩
    · rw [← ha]; exact hp
    · rw [← hs]; exact hq
  · rintro ⟨ws, hg, hsub⟩
    rw [getWords_iff_mem d hd hin a s ws] at hg
    rcases hg with ⟨m, hm, hsm⟩
    exact ⟨(a, m), hm, rfl, (s, ws), hsm, rfl, hsub⟩

theorem nodup_matchList (d : DataDict) (Q : WordSet) (hd : nodupKeys d)
    (hin : ∀ p ∈ d, nodupKeys p.2) : (matchList d Q).Nodup := by
  unfold matchList
  rw [List.nodup_flatMap]
  constructor
  · intro p hp
    have h1 : ((p.2.filter (fun q => decide (Q ⊆ q.2))).map Prod.fst).Nodup :=
      (hin p hp).sublist ((List.filter_sublist p.2).map Prod.fst)
    have h2 : (((p.2.filter (fun q => decide (Q ⊆ q.2))).map Prod.fst).map
        (fun x => (p.1, x))).Nodup :=
      h1.map (fun x y e => congrArg Prod.snd e)
    rw [List.map_map] at h2
    exact h2
  · have hpe : List.Pairwise (fun a b : String => a ≠ b) (d.map Prod.fst) := hd
    have hne : List.Pairwise (fun p p2 : String × SongMap => p.1 ≠ p2.1) d :=
      List.pairwise_map.mp hpe
    refine hne.imp ?_
    intro p p2 hne12
    intro x hx1 hx2
    rcases List.mem_map.mp hx1 with ⟨q1, _, he1⟩
    rcases List.mem_map.mp hx2 with ⟨q2, _, he2⟩
    have e1 : p.1 = x.1 := congrArg Prod.fst he1
    have e2 : p2.1 = x.1 := congrArg Prod.fst he2
    exact hne12 (e1.trans e2.symm)

theorem sorted_search_songs (d : DataDict) (Q : WordSet) :
    List.Pairwise lexLe (search_songs d Q) := by
  rw [search_songs_eq_sort_matchList]
  have h := @List.sorted_mergeSort (String × String) pairLeB pairLeB_trans pairLeB_total
    (matchList d Q)
  exact h.imp (fun hb => of_decide_eq_true hb)

/-- C1: for a non-empty query of valid words, `search_songs` returns
exactly the `(artist, song)` pairs whose word set contains the query as a
subset, sorted ascending lexicographically by artist then song, and the
output depends only on the contents of the index, not on the insertion
order used to build it. -/
theorem search_songs_correct (d : DataDict) (S Q : WordSet)
    (hd : nodupKeys d) (hin : ∀ p ∈ d, nodupKeys p.2)
    (hne : Q.Nonempty) (hval : ∀ w ∈ Q, validate_word w S = true) :
    (∀ a s, (a, s) ∈ search_songs d Q ↔ ∃ ws, getWords d a s = some ws ∧ Q ⊆ ws)
    ∧ List.Pairwise lexLe (search_songs d Q)
    ∧ (∀ d2, nodupKeys d2 → (∀ p ∈ d2, nodupKeys p.2) →
        (∀ a s, getWords d2 a s = getWords d a s) →
        search_songs d2 Q = search_songs d Q) := by
  refine ⟨fun a s => mem_search_songs d Q hd hin a s, sorted_search_songs d Q, ?_⟩
  intro d2 hd2 hin2 hsame
  have hnd1 : (search_songs d Q).Nodup := by
    rw [search_songs_eq_sort_matchList]
    exact ((List.mergeSort_perm (matchList d Q) pairLeB).nodup_iff).mpr
      (nodup_matchList d Q hd hin)
  have hnd2 : (search_songs d2 Q).Nodup := by
    rw [search_songs_eq_sort_matchList]
    exact ((List.mergeSort_perm (matchList d2 Q) pairLeB).nodup_iff).mpr
      (nodup_matchList d2 Q hd2 hin2)
  have hmem : ∀ x, x ∈ search_songs d2 Q ↔ x ∈ search_songs d Q := by
    intro x
    cases x with
    | mk a s =>
      rw [mem_search_songs d2 Q hd2 hin2 a s, mem_search_songs d Q hd hin a s]
      simp only [hsame]
  have hperm : List.Perm (search_songs d2 Q) (search_songs d Q) :=
    (List.perm_ext_iff_of_nodup hnd2 hnd1).mpr hmem
  haveI : IsAntisymm (String × String) lexLe := ⟨lexLe_antisymm⟩
  exact List.eq_of_perm_of_sorted hperm (sorted_search_songs d2 Q)
    (sorted_search_songs d Q)

/-- Witness for C1 on the concrete index `dEx` and query `{"cat"}`. -/
theorem search_songs_correct_witness :
    (∀ a s, (a, s) ∈ search_songs dEx {"cat"} ↔
      ∃ ws, getWords dEx a s = some ws ∧ {"cat"} ⊆ ws)
    ∧ List.Pairwise lexLe (search_songs dEx {"cat"})
    ∧ (∀ d2, nodupKeys d2 → (∀ p ∈ d2, nodupKeys p.2) →
        (∀ a s, getWords d2 a s = getWords dEx a s) →
        search_songs d2 {"cat"} = search_songs dEx {"cat"}) :=
  search_songs_correct dEx {"the"} {"cat"} (by decide) (by decide)
    ⟨"cat", by decide⟩ (by decide)

/-- C9: on the empty query — the empty set is a subset of every word
set — `search_songs` neither fails nor returns nothing: it returns every
`(artist, song)` pair present in the index, sorted ascending by artist
then song. -/
theorem search_songs_empty_query (d : DataDict) (hd : nodupKeys d)
    (hin : ∀ p ∈ d, nodupKeys p.2) :
    (∀ a s, (a, s) ∈ search_songs d ∅ ↔ ∃ ws, getWords d a s = some ws)
    ∧ List.Pairwise lexLe (search_songs d ∅) := by
  refine ⟨fun a s => ?_, sorted_search_songs d ∅⟩
  rw [mem_search_songs d ∅ hd hin a s]
  simp [Finset.empty_subset]

/-- Witness for C9 on the concrete index `dEx`. -/
theorem search_songs_empty_query_witness :
    (∀ a s, (a, s) ∈ search_songs dEx ∅ ↔ ∃ ws, getWords dEx a s = some ws)
    ∧ List.Pairwise lexLe (search_songs dEx ∅) :=
  search_songs_empty_query dEx (by decide) (by decide)

/-! ### Ranking and presentation (C8) -/

theorem rankDescLe_trans :
    ∀ (a b c : RankRow), rankDescLe a b → rankDescLe b c → rankDescLe a c := by
  intro a b c hab hbc
  unfold rankDescLe at hab hbc ⊢
  exact decide_eq_true
    (lexLe_trans _ _ _ (of_decide_eq_true hbc) (of_decide_eq_true hab))

theorem rankDescLe_total : ∀ (a b : RankRow), rankDescLe a b || rankDescLe b a := by
  intro a b
  unfold rankDescLe
  rcases lexLe_total (rankKey b) (rankKey a) with h | h
  · simp [h]
  · simp [h]

/-- C8: `display_singers` shows at most the first 10 rows of a
rearrangement of its input that is sorted descending by the key
`(average word count, number of songs)` — the primary key is position 1 of
the tuple (the average) and the secondary key is position 3 (the song
count), both descending, as produced by
`sorted(combined_list, key=itemgetter(1, 3), reverse=True)[:10]`. -/
theorem display_singers_spec (l : List RankRow) :
    (display_singers l).length ≤ 10
    ∧ List.Perm (l.mergeSort rankDescLe) l
    ∧ List.Pairwise (fun a b => lexLe (rankKey b) (rankKey a)) (l.mergeSort rankDescLe)
    ∧ display_singers l = (l.mergeSort rankDescLe).take 10 := by
  refine ⟨?_, List.mergeSort_perm l rankDescLe, ?_, rfl⟩
  · unfold display_singers
    rw [List.length_take]
    exact Nat.min_le_left _ _
  · have h := @List.sorted_mergeSort RankRow rankDescLe rankDescLe_trans rankDescLe_total l
    exact h.imp (fun hb => of_decide_eq_true hb)

/-! ### Idempotence of tokenization (C6) -/

theorem toNat_ofNat_valid (n : ℕ) (h : n < 55296) : (Char.ofNat n).toNat = n := by
  have hv : n.isValidChar := Or.inl h
  simp only [Char.ofNat, hv, dif_pos, Char.ofNatAux, Char.toNat, UInt32.toNat]
  simp [BitVec.toNat_ofNatLt]

theorem lowerCh_eq_self_of_not_upper (c : Char)
    (h : ¬ (65 ≤ c.toNat ∧ c.toNat ≤ 90)) : lowerCh c = c := by
  unfold lowerCh
  rw [if_neg h]

theorem toNat_lowerCh_upper (c : Char) (h : 65 ≤ c.toNat ∧ c.toNat ≤ 90) :
    (lowerCh c).toNat = c.toNat + 32 := by
  unfold lowerCh
  rw [if_pos h]
  exact toNat_ofNat_valid _ (by omega)

theorem lowerCh_idem (c : Char) : lowerCh (lowerCh c) = lowerCh c := by
  by_cases h : 65 ≤ c.toNat ∧ c.toNat ≤ 90
  · have h1 : (lowerCh c).toNat = c.toNat + 32 := toNat_lowerCh_upper c h
    exact lowerCh_eq_self_of_not_upper (lowerCh c) (by omega)
  · rw [lowerCh_eq_self_of_not_upper c h]
    exact lowerCh_eq_self_of_not_upper c h

theorem mem_pyStrip (p : Char → Bool) (l : List Char) (c : Char)
    (h : c ∈ pyStrip p l) : c ∈ l := by
  unfold pyStrip at h
  rw [List.mem_reverse] at h
  have h1 := (List.dropWhile_sublist p).subset h
  rw [List.mem_reverse] at h1
  exact (List.dropWhile_sublist p).subset h1

theorem dropWhile_eq_self_of_false (p : Char → Bool) (l : List Char)
    (h : ∀ c ∈ l, p c = false) : l.dropWhile p = l := by
  cases l with
  | nil => rfl
  | cons a l2 =>
    rw [List.dropWhile_cons, h a (List.mem_cons_self a l2)]
    simp

theorem pyStrip_eq_self (p : Char → Bool) (l : List Char)
    (h : ∀ c ∈ l, p c = false) : pyStrip p l = l := by
  unfold pyStrip
  rw [dropWhile_eq_self_of_false p l h]
  rw [dropWhile_eq_self_of_false p l.reverse
    (fun c hc => h c (List.mem_reverse.mp hc))]
  exact List.reverse_reverse l

theorem map_lowerCh_of_fixed (l : List Char) (h : ∀ c ∈ l, lowerCh c = c) :
    l.map lowerCh = l :=
  (List.map_congr_left h).trans (List.map_id l)

theorem isAlphaCh_not_space (c : Char) (h : isAlphaCh c = true) :
    isSpaceCh c = false := by
  unfold isAlphaCh at h
  unfold isSpaceCh
  simp only [Bool.or_eq_true, Bool.and_eq_true, decide_eq_true_eq] at h
  simp only [Bool.or_eq_false_iff, decide_eq_false_iff_not]
  omega

theorem isAlphaCh_not_punct (c : Char) (h : isAlphaCh c = true) :
    isPunctCh c = false := by
  unfold isAlphaCh at h
  unfold isPunctCh pyPunctCodes
  simp only [Bool.or_eq_true, Bool.and_eq_true, decide_eq_true_eq] at h
  simp only [decide_eq_false_iff_not, List.mem_cons, List.not_mem_nil, or_false]
  omega

theorem cleanToken_chars_lower (t : List Char) (c : Char) (h : c ∈ cleanToken t) :
    lowerCh c = c := by
  unfold cleanToken at h
  have h1 := mem_pyStrip _ _ _ h
  have h2 := mem_pyStrip _ _ _ h1
  rcases List.mem_map.mp h2 with ⟨c0, _, he⟩
  rw [← he]
  exact lowerCh_idem c0

theorem cleanToken_eq_self (w : List Char)
    (halpha : ∀ c ∈ w, isAlphaCh c = true) (hlower : ∀ c ∈ w, lowerCh c = c) :
    cleanToken w = w := by
  unfold cleanToken
  rw [map_lowerCh_of_fixed w hlower]
  rw [pyStrip_eq_self isSpaceCh w (fun c hc => isAlphaCh_not_space c (halpha c hc))]
  rw [pyStrip_eq_self isPunctCh w (fun c hc => isAlphaCh_not_punct c (halpha c hc))]

theorem splitWSAux_no_space (w : List Char) (hw : ∀ c ∈ w, isSpaceCh c = false) :
    ∀ (cs tok : List Char), splitWSAux (w ++ cs) tok = splitWSAux cs (w.reverse ++ tok) := by
  induction w with
  | nil => intro cs tok; simp
  | cons a w2 ih =>
    intro cs tok
    have ha : isSpaceCh a = false := hw a (List.mem_cons_self _ _)
    rw [List.cons_append]
    show splitWSAux (a :: (w2 ++ cs)) tok = splitWSAux cs ((a :: w2).reverse ++ tok)
    rw [splitWSAux, ha]
    simp only [Bool.false_eq_true, if_false]
    rw [ih (fun c hc => hw c (List.mem_cons_of_mem a hc)) cs (a :: tok)]
    rw [List.reverse_cons, List.append_assoc]
    rfl

theorem splitWS_joinChars (ws : List (List Char))
    (h : ∀ w ∈ ws, w ≠ [] ∧ ∀ c ∈ w, isSpaceCh c = false) :
    splitWS (joinChars ws) = ws := by
  induction ws with
  | nil => rfl
  | cons w ws2 ih =>
    rcases h w (List.mem_cons_self _ _) with ⟨hne, hnsp⟩
    have hre : (w.reverse ++ ([] : List Char)).isEmpty = false := by
      rw [List.append_nil]
      simp [List.isEmpty_eq_false, hne]
    cases ws2 with
    | nil =>
      show splitWS (joinChars [w]) = [w]
      have hj : joinChars [w] = w := rfl
      rw [hj]
      unfold splitWS
      have h1 := splitWSAux_no_space w hnsp [] []
      rw [List.append_nil] at h1
      rw [h1]
      rw [splitWSAux, hre]
      simp
    | cons w2 ws3 =>
      show splitWS (joinChars (w :: w2 :: ws3)) = w :: w2 :: ws3
      have hj : joinChars (w :: w2 :: ws3) = w ++ ' ' :: joinChars (w2 :: ws3) := rfl
      rw [hj]
      unfold splitWS
      rw [splitWSAux_no_space w hnsp (' ' :: joinChars (w2 :: ws3)) []]
      rw [splitWSAux]
      have hsp : isSpaceCh ' ' = true := rfl
      rw [hsp, hre]
      simp only [if_true, Bool.false_eq_true, if_false]
      rw [List.append_nil, List.reverse_reverse]
      have ih2 := ih (fun v hv => h v (List.mem_cons_of_mem w hv))
      unfold splitWS at ih2
      rw [ih2]

theorem mem_foldl_insert (S : Finset String) :
    ∀ (L : List String) (acc : Finset String) (w : String),
      (w ∈ L.foldl
        (fun acc word => if validate_word word S then insert word acc else acc) acc
       ↔ w ∈ acc ∨ (w ∈ L ∧ validate_word w S = true)) := by
  intro L
  induction L with
  | nil => intro acc w; simp
  | cons a L2 ih =>
    intro acc w
    rw [List.foldl_cons, ih]
    by_cases ha : validate_word a S = true
    · rw [if_pos ha]
      simp only [Finset.mem_insert, List.mem_cons]
      constructor
      · rintro ((he | hacc) | ⟨hL, hv⟩)
        · exact Or.inr ⟨Or.inl he, he ▸ ha⟩
        · exact Or.inl hacc
        · exact Or.inr ⟨Or.inr hL, hv⟩
      · rintro (hacc | ⟨he | hL, hv⟩)
        · exact Or.inl (Or.inr hacc)
        · exact Or.inl (Or.inl he)
        · exact Or.inr ⟨hL, hv⟩
    · rw [if_neg ha]
      simp only [List.mem_cons]
      constructor
      · rintro (hacc | ⟨hL, hv⟩)
        · exact Or.inl hacc
        · exact Or.inr ⟨Or.inr hL, hv⟩
      · rintro (hacc | ⟨he | hL, hv⟩)
        · exact Or.inl hacc
        · exact absurd (he ▸ hv) ha
        · exact Or.inr ⟨hL, hv⟩

theorem mem_process_lyrics (text : String) (S : Finset String) (w : String) :
    w ∈ process_lyrics text S ↔
      ((∃ t ∈ splitWS text.data, (cleanToken t).asString = w)
        ∧ validate_word w S = true) := by
  unfold process_lyrics
  rw [mem_foldl_insert S _ ∅ w]
  simp only [Finset.not_mem_empty, false_or, List.mem_map]

theorem data_asString (w : String) : (w.data).asString = w := by
  cases w
  rfl

theorem process_lyrics_members (text : String) (S : Finset String) (w : String)
    (h : w ∈ process_lyrics text S) :
    w.data ≠ [] ∧ (∀ c ∈ w.data, isAlphaCh c = true)
      ∧ (∀ c ∈ w.data, lowerCh c = c) ∧ validate_word w S = true := by
  rcases (mem_process_lyrics text S w).mp h with ⟨⟨t, _, he⟩, hv⟩
  rcases (validate_word_iff_aux w S).mp hv with ⟨hne, halpha, _⟩
  refine ⟨hne, halpha, ?_, hv⟩
  intro c hc
  have hdata : w.data = cleanToken t := by
    rw [← he]
    exact rfl
  rw [hdata] at hc
  exact cleanToken_chars_lower t c hc

/-- C6: tokenization is idempotent on its own output: joining any
enumeration of the word set produced by `process_lyrics` into a
whitespace-separated string and tokenizing that string again yields the
same word set. -/
theorem process_lyrics_idempotent (text : String) (S : Finset String) (l : List String)
    (hl : l.toFinset = process_lyrics text S) :
    process_lyrics (joinWords l) S = process_lyrics text S := by
  have hmem : ∀ w ∈ l, w ∈ process_lyrics text S := by
    intro w hw
    rw [← hl]
    exact List.mem_toFinset.mpr hw
  have hfacts := fun w hw => process_lyrics_members text S w (hmem w hw)
  have hdata : (joinWords l).data = joinChars (l.map String.data) := rfl
  have hsplit : splitWS (joinWords l).data = l.map String.data := by
    rw [hdata]
    apply splitWS_joinChars
    intro w hw
    rcases List.mem_map.mp hw with ⟨s0, hs0, he⟩
    rcases hfacts s0 hs0 with ⟨hne, halpha, _, _⟩
    subst he
    refine ⟨hne, fun c hc => isAlphaCh_not_space c (halpha c hc)⟩
  have htok : ((splitWS (joinWords l).data).map (fun w => (cleanToken w).asString)) = l := by
    rw [hsplit, List.map_map]
    have hcg : ∀ s0 ∈ l, ((fun w => (cleanToken w).asString) ∘ String.data) s0 = s0 := by
      intro s0 hs0
      rcases hfacts s0 hs0 with ⟨_, halpha, hlow, _⟩
      show (cleanToken s0.data).asString = s0
      rw [cleanToken_eq_self s0.data halpha hlow]
      exact data_asString s0
    rw [List.map_congr_left hcg]
    simp
  apply Finset.ext
  intro x
  rw [mem_process_lyrics (joinWords l) S x]
  constructor
  · rintro ⟨⟨t, ht, he⟩, hv⟩
    have hxm : x ∈ (splitWS (joinWords l).data).map (fun w => (cleanToken w).asString) :=
      List.mem_map.mpr ⟨t, ht, he⟩
    rw [htok] at hxm
    exact hmem x hxm
  · intro hx
    have hxl : x ∈ l := by
      rw [← List.mem_toFinset, hl]
      exact hx
    have hxv : validate_word x S = true := (process_lyrics_members text S x hx).2.2.2
    have hxm : x ∈ (splitWS (joinWords l).data).map (fun w => (cleanToken w).asString) := by
      rw [htok]
      exact hxl
    rcases List.mem_map.mp hxm with ⟨t, ht, he⟩
    exact ⟨⟨t, ht, he⟩, hxv⟩

/-- Witness for C6: re-tokenizing the joined output of a concrete
tokenization reproduces it. -/
theorem process_lyrics_idempotent_witness :
    process_lyrics (joinWords ["sat", "cat"]) {"the"} =
      process_lyrics "the cat sat" {"the"} :=
  process_lyrics_idempotent "the cat sat" {"the"} ["sat", "cat"] rfl
